import Mathlib

/-!
Verification of the quantum-routing capacity network and its algorithm
registry.

The development shallowly embeds the code of the repository:

* the routing-policy registry (src/QuantumRouting/mecqkdnetwork.cpp) is
  translated directly from the source;

* the capacity network (declared in src/QuantumRouting/capacitynetwork.h)
  has its member-function bodies in a translation unit that is not part of
  the sources at hand, so those operations are modelled from the
  specification and from the doc comments of the header; every such
  definition carries a doc comment starting with Modelled from the spec.

Real-valued quantities (capacities, rates, probabilities) are embedded as
rationals.
-/

namespace uiiit

namespace qr

/-! ## Algorithm registry (from src/QuantumRouting/mecqkdnetwork.cpp) -/

/-- The MecQkdAlgo enumeration. The header declaring it is not among the
sources, but the six named enumerators are fixed by allMecQkdAlgos and by
the switch in toString. Since a C++ scoped enumeration may also hold values
outside its named enumerators, such values are represented explicitly by
the outOfEnum constructor, so that the default branch of toString can be
stated. -/
inductive MecQkdAlgo where
  | Random
  | Spf
  | BestFit
  | RandomFeas
  | SpfFeas
  | BestFitFeas
  | outOfEnum (n : Nat)
deriving DecidableEq, Repr

/-- Translation of allMecQkdAlgos: the list of the six named policies. -/
def allMecQkdAlgos : List MecQkdAlgo :=
  [MecQkdAlgo.Random,
   MecQkdAlgo.Spf,
   MecQkdAlgo.BestFit,
   MecQkdAlgo.RandomFeas,
   MecQkdAlgo.SpfFeas,
   MecQkdAlgo.BestFitFeas]

/-- Translation of toString(MecQkdAlgo): the switch over the six named
enumerators, with the default branch returning "unknown". -/
def toString (aAlgo : MecQkdAlgo) : String :=
  match aAlgo with
  | MecQkdAlgo.Random => "random"
  | MecQkdAlgo.Spf => "spf"
  | MecQkdAlgo.BestFit => "bestfit"
  | MecQkdAlgo.RandomFeas => "randomfeas"
  | MecQkdAlgo.SpfFeas => "spffeas"
  | MecQkdAlgo.BestFitFeas => "bestfitfeas"
  | MecQkdAlgo.outOfEnum _ => "unknown"

/-- The comma-separated list of valid policy names that
mecQkdAlgofromString embeds in its error message. The join helper
(Support/tostring.h) is not among the sources; it concatenates the
rendered elements with the given separator, here ",". -/
def algoListString : String :=
  String.intercalate "," (allMecQkdAlgos.map toString)

/-- Translation of mecQkdAlgofromString: decode a policy name, or fail
with a message listing the valid options. Throwing std::runtime_error is
embedded as returning Except.error with the exception's message. -/
def mecQkdAlgofromString (aAlgo : String) : Except String MecQkdAlgo :=
  if aAlgo = "random" then Except.ok MecQkdAlgo.Random
  else if aAlgo = "bestfit" then Except.ok MecQkdAlgo.BestFit
  else if aAlgo = "spf" then Except.ok MecQkdAlgo.Spf
  else if aAlgo = "randomfeas" then Except.ok MecQkdAlgo.RandomFeas
  else if aAlgo = "bestfitfeas" then Except.ok MecQkdAlgo.BestFitFeas
  else if aAlgo = "spffeas" then Except.ok MecQkdAlgo.SpfFeas
  else Except.error ("invalid edge QKD algorithm: " ++ aAlgo ++
    " (valid options are: " ++ algoListString ++ ")")

/-! ## Capacity network data model

The bodies of the CapacityNetwork member functions live in a translation
unit that is not among the sources; the definitions below are modelled
from the specification (sections 3, 4.1, 4.2) and from the doc comments
of src/QuantumRouting/capacitynetwork.h. -/

/-- A directed edge with its residual capacity (the boost edge-weight
property of the graph, embedded as a rational). -/
structure Edge where
  src : Nat
  dst : Nat
  weight : ℚ
deriving DecidableEq, Repr

/-- Modelled from the spec: the directed weighted adjacency structure
owned by the network (the boost adjacency_list member theGraph, whose
manipulation code is not among the sources). Vertices are 0, ...,
numVertices - 1; the vertex set is fixed at construction. Edges are keyed
by their (src, dst) pair. -/
structure Graph where
  numVertices : Nat
  edges : List Edge
deriving DecidableEq, Repr

/-- Translation of CapacityNetwork::FlowDescriptor: immutable inputs
(source, destination, requested net rate) plus the output fields written
by the router (path as hops excluding the source, gross rate, number of
shortest-path searches). -/
structure FlowDescriptor where
  theSrc : Nat
  theDst : Nat
  theNetRate : ℚ
  thePath : List Nat
  theGrossRate : ℚ
  theDijsktra : Nat
deriving DecidableEq, Repr

/-- Modelled from the spec: the FlowDescriptor constructor (its body is
not among the sources) stores the inputs and leaves the output fields
empty: no path, zero gross rate, zero searches. -/
def FlowDescriptor.make (aSrc aDst : Nat) (aNetRate : ℚ) : FlowDescriptor :=
  { theSrc := aSrc
    theDst := aDst
    theNetRate := aNetRate
    thePath := []
    theGrossRate := 0
    theDijsktra := 0 }

/-- The error taxonomy of the spec (section 7) relevant to route. -/
inductive RouteError where
  | malformedRequest
deriving DecidableEq, Repr

/-- The error raised by the measurementProbability setter. -/
inductive ConfigError where
  | configurationError
deriving DecidableEq, Repr

/-- Translation of the CapacityNetwork state: the graph and the scalar
measurement probability. -/
structure CapacityNetwork where
  theGraph : Graph
  theMeasurementProbability : ℚ
deriving DecidableEq, Repr

/-- The outcome of a route call: the error raised (if any), the network
state after the call, and the flow descriptors after the call. An
exception in the C++ code is embedded as theError = some e together with
the state the object is left in. -/
structure RouteOutcome where
  theError : Option RouteError
  theNetwork : CapacityNetwork
  theFlows : List FlowDescriptor
deriving Repr

/-- One plus the largest vertex mentioned by an edge list: with vecS
vertex storage, adding an edge (u, v) creates every vertex up to
max u v. -/
def verticesUpperBound (es : List Edge) : Nat :=
  es.foldl (fun a e => max a (max (e.src + 1) (e.dst + 1))) 0

/-- Modelled from the spec: the constructor taking an explicit list of
(source, destination, weight) triples (its body is not among the
sources). Per the header doc comment, the default measurement
probability is 1. -/
def CapacityNetwork.mkFromWeights
    (aEdgeWeights : List (Nat × Nat × ℚ)) : CapacityNetwork :=
  let es : List Edge := aEdgeWeights.map (fun t => ⟨t.1, t.2.1, t.2.2⟩)
  { theGraph := { numVertices := verticesUpperBound es, edges := es }
    theMeasurementProbability := 1 }

/-- Modelled from the spec: the constructor taking an edge list, a random
source for the weights and a mirroring flag (its body is not among the
sources). The random source is embedded as the stream of weights it
draws, one per input edge; when aMakeBidirectional is set, each pair
(A, B) yields the two edges A->B and B->A with the same weight. Per the
header doc comment, the default measurement probability is 1. -/
def CapacityNetwork.mkFromEdges
    (aEdges : List (Nat × Nat)) (aWeightRv : Nat → ℚ)
    (aMakeBidirectional : Bool) : CapacityNetwork :=
  let es : List Edge :=
    (aEdges.enum.map (fun t => Edge.mk t.2.1 t.2.2 (aWeightRv t.1))) ++
      (if aMakeBidirectional then
        aEdges.enum.map (fun t => Edge.mk t.2.2 t.2.1 (aWeightRv t.1))
      else [])
  { theGraph := { numVertices := verticesUpperBound es, edges := es }
    theMeasurementProbability := 1 }

/-- Translation of the measurementProbability getter (inline in the
header): return the stored scalar. -/
def CapacityNetwork.measurementProbability (net : CapacityNetwork) : ℚ :=
  net.theMeasurementProbability

/-- Modelled from the spec: the measurementProbability setter (its body
is not among the sources). Per the header doc comment and spec section
4.1 it fails with a configuration error when the argument is not in
[0, 1], leaving the previous value unchanged; otherwise it stores the
argument. -/
def CapacityNetwork.setMeasurementProbability
    (net : CapacityNetwork) (aMeasurementProbability : ℚ) :
    Option ConfigError × CapacityNetwork :=
  if 0 ≤ aMeasurementProbability ∧ aMeasurementProbability ≤ 1 then
    (none, { net with theMeasurementProbability := aMeasurementProbability })
  else
    (some ConfigError.configurationError, net)

/-! ## Capacity queries and mutation primitives -/

/-- The residual capacity stored for the edge (u, v), if present: the
weight of the first edge of the list with that key. -/
def findWeightL (es : List Edge) (u v : Nat) : Option ℚ :=
  (es.find? (fun e => e.src == u && e.dst == v)).map Edge.weight

/-- The residual capacity of the edge (u, v), counting an absent (pruned)
edge as zero. -/
def edgeCapacityL (es : List Edge) (u v : Nat) : ℚ :=
  (findWeightL es u v).getD 0

/-- The residual capacity of the edge (u, v) of a graph. -/
def edgeCapacity (g : Graph) (u v : Nat) : ℚ :=
  edgeCapacityL g.edges u v

/-- The consecutive (tail, head) vertex pairs of a path given as the hop
list aPath (excluding the source aSrc), as used by checkCapacity and
removeCapacityFromPath. -/
def pathPairs (aSrc : Nat) (aPath : List Nat) : List (Nat × Nat) :=
  (aSrc :: aPath).zip aPath

/-- Whether the edge keyed uv exists and has residual capacity at least
amount. -/
def edgeCanSupport (es : List Edge) (amount : ℚ) (uv : Nat × Nat) : Bool :=
  match findWeightL es uv.1 uv.2 with
  | some w => decide (amount ≤ w)
  | none => false

/-- Modelled from the spec: CapacityNetwork::checkCapacity (its body is
not among the sources) - true when every edge along the path from aSrc
has residual capacity at least aCapacity, that is, when aCapacity does
not exceed the bottleneck of the path. -/
def checkCapacity (aSrc : Nat) (aPath : List Nat) (aCapacity : ℚ)
    (aGraph : Graph) : Bool :=
  (pathPairs aSrc aPath).all (edgeCanSupport aGraph.edges aCapacity)

/-- Decrement the residual capacity of the (first) edge keyed (u, v) by
amount; per spec section 4.1, an edge whose residual capacity reaches
exactly zero is removed from the graph. -/
def adjustEdge (u v : Nat) (amount : ℚ) : List Edge → List Edge
  | [] => []
  | e :: es =>
    if e.src = u ∧ e.dst = v then
      if e.weight - amount = 0 then es
      else { e with weight := e.weight - amount } :: es
    else e :: adjustEdge u v amount es

/-- Modelled from the spec: CapacityNetwork::removeCapacityFromPath (its
body is not among the sources) - decrement every edge along the path by
aCapacity, pruning edges that reach exactly zero; a path whose minimum
residual capacity is below aCapacity is rejected (none) before any
mutation occurs. -/
def removeCapacityFromPath (aSrc : Nat) (aPath : List Nat)
    (aCapacity : ℚ) (aGraph : Graph) : Option Graph :=
  if checkCapacity aSrc aPath aCapacity aGraph then
    some { aGraph with
      edges := (pathPairs aSrc aPath).foldl
        (fun es uv => adjustEdge uv.1 uv.2 aCapacity es) aGraph.edges }
  else none

/-! ## Shortest-path search -/

/-- The successor vertices of u in the graph. -/
def succs (g : Graph) (u : Nat) : List Nat :=
  g.edges.filterMap (fun e => if e.src = u then some e.dst else none)

/-- All simple paths from cur to dst avoiding the already visited
vertices, each returned as its hop list (excluding cur), bounded by the
given fuel. -/
def pathsAux (g : Graph) (visited : List Nat) (cur dst : Nat) :
    Nat → List (List Nat)
  | 0 => []
  | fuel + 1 =>
    if cur = dst then [[]]
    else
      (succs g cur).flatMap (fun v =>
        if v ∈ visited then []
        else (pathsAux g (v :: visited) v dst fuel).map (fun q => v :: q))

/-- All simple paths from src to dst in the graph, as hop lists. A simple
path has at most numVertices vertices, so the fuel numVertices + 1 is
enough for the enumeration to be exhaustive. -/
def allPaths (g : Graph) (src dst : Nat) : List (List Nat) :=
  pathsAux g [src] src dst (g.numVertices + 1)

/-- The total weight of a path given by its hop list. -/
def pathWeight (g : Graph) (src : Nat) (path : List Nat) : ℚ :=
  (pathPairs src path).foldl
    (fun acc uv => acc + edgeCapacityL g.edges uv.1 uv.2) 0

/-- Keep the lighter of two candidate paths. -/
def pickShorter (g : Graph) (src : Nat) (best q : List Nat) : List Nat :=
  if pathWeight g src q < pathWeight g src best then q else best

/-- Modelled from the spec: the single-source shortest-path search
(Dijkstra over the current edge weights, followed by the HopsFinder
reconstruction; the body is not among the sources). It returns a
minimum-weight simple path from src to dst as its hop list, or none when
dst is unreachable. -/
def shortestPath (g : Graph) (src dst : Nat) : Option (List Nat) :=
  match allPaths g src dst with
  | [] => none
  | p :: ps => some (ps.foldl (pickShorter g src) p)

/-! ## The flow router -/

/-- Modelled from the spec: the gross-to-net rate transform - the
measurement probability is a single scalar applied uniformly to derive
the net rate from the gross rate (spec section 3; section 9 leaves the
exact multi-hop form open and asks for it to be isolated in a single
function). -/
def netRate (p grossRate : ℚ) : ℚ :=
  p * grossRate

/-- Modelled from the spec: validation of a flow descriptor (spec section
4.2 step 1) - the source differs from the destination and both vertices
exist in the graph. -/
def validFlow (g : Graph) (f : FlowDescriptor) : Bool :=
  f.theSrc != f.theDst && f.theSrc < g.numVertices && f.theDst < g.numVertices

/-- Modelled from the spec: processing of a single flow by route (spec
section 4.2, steps 2-5; the body is not among the sources). Run the
shortest-path search (counting it in theDijsktra); if no path exists, or
the feasibility predicate rejects the tentative descriptor, leave the
flow unrouted. Otherwise the gross rate is the requested net rate
untransformed by the measurement probability, capped so that the realized
net rate is no less than the requested net rate; if that gross rate
exceeds the bottleneck of the path, the flow is unrouted and nothing is
mutated, else the path and gross rate are recorded and every edge of the
path is decremented by the gross rate, pruning edges that reach zero. -/
def routeOne (p : ℚ) (check : FlowDescriptor → Bool) (g : Graph)
    (f : FlowDescriptor) : Graph × FlowDescriptor :=
  match shortestPath g f.theSrc f.theDst with
  | none => (g, { f with theDijsktra := f.theDijsktra + 1 })
  | some path =>
    if check { f with theDijsktra := f.theDijsktra + 1, thePath := path } then
      if netRate p (f.theNetRate / p) ≥ f.theNetRate then
        match removeCapacityFromPath f.theSrc path (f.theNetRate / p) g with
        | some g2 =>
          (g2,
            { f with
                theDijsktra := f.theDijsktra + 1
                thePath := path
                theGrossRate := f.theNetRate / p })
        | none => (g, { f with theDijsktra := f.theDijsktra + 1 })
      else (g, { f with theDijsktra := f.theDijsktra + 1 })
    else (g, { f with theDijsktra := f.theDijsktra + 1 })

/-- Modelled from the spec: the sequential admission loop of route - the
flows are routed one by one in the order in which they are passed, the
capacity consumed by a flow being visible to the following ones. -/
def routeLoop (p : ℚ) (check : FlowDescriptor → Bool) (g : Graph) :
    List FlowDescriptor → Graph × List FlowDescriptor
  | [] => (g, [])
  | f :: fs =>
    ((routeLoop p check (routeOne p check g f).1 fs).1,
      (routeOne p check g f).2 ::
        (routeLoop p check (routeOne p check g f).1 fs).2)

/-- Modelled from the spec: CapacityNetwork::route (its body is not among
the sources). Every descriptor of the batch is validated before any flow
is executed (spec section 4.2 step 1: validation of all flows is
decoupled from execution); an ill-formed request raises
MalformedRequestError with the guarantee that the internal state is
unchanged. Otherwise the flows are admitted sequentially. -/
def route (net : CapacityNetwork) (aFlows : List FlowDescriptor)
    (aCheckFunction : FlowDescriptor → Bool) : RouteOutcome :=
  if aFlows.all (validFlow net.theGraph) then
    let r := routeLoop net.theMeasurementProbability aCheckFunction
      net.theGraph aFlows
    { theError := none
      theNetwork := { net with theGraph := r.1 }
      theFlows := r.2 }
  else
    { theError := some RouteError.malformedRequest
      theNetwork := net
      theFlows := aFlows }

/-! ## The app router

The app-admission entry point is analogous to route (spec section 6) and
its code is in the same translation unit absent from the sources; it is
modelled from spec section 4.3. -/

/-- Translation of CapacityNetwork::AppDescriptor (declared in the
header): inputs host, candidate peers and priority weight; outputs the
list of allocations, each a (net rate, gross rate, path) triple, and the
count of k-shortest-path searches; working state the deficit counter, in
gross rate. -/
structure AppDescriptor where
  theHost : Nat
  thePeers : List Nat
  thePriority : ℚ
  thePaths : List (ℚ × ℚ × List Nat)
  theYen : Nat
  theDelta : ℚ
deriving DecidableEq, Repr

/-- Modelled from the spec: the AppDescriptor constructor (its body is
not among the sources) stores the inputs and leaves the outputs empty:
no allocations, zero searches, zero deficit. -/
def AppDescriptor.make (aHost : Nat) (aPeers : List Nat)
    (aPriority : ℚ) : AppDescriptor :=
  { theHost := aHost
    thePeers := aPeers
    thePriority := aPriority
    thePaths := []
    theYen := 0
    theDelta := 0 }

/-- The outcome of an app-admission call, analogous to RouteOutcome. -/
structure AppRouteOutcome where
  theError : Option RouteError
  theNetwork : CapacityNetwork
  theApps : List AppDescriptor
deriving Repr

/-- The minimum residual capacity over the edges keyed by the given
pairs, or none when some edge is absent. -/
def bottleneckAux (es : List Edge) (uv : Nat × Nat) :
    List (Nat × Nat) → Option ℚ
  | [] => findWeightL es uv.1 uv.2
  | uv' :: uvs =>
    match findWeightL es uv.1 uv.2, bottleneckAux es uv' uvs with
    | some w, some m => some (min w m)
    | _, _ => none

/-- The bottleneck residual capacity of a path (spec glossary): the
minimum residual capacity among its edges; none for an empty path or
when an edge of the path is no longer in the graph. -/
def bottleneckOf (es : List Edge) (src : Nat) (path : List Nat) :
    Option ℚ :=
  match pathPairs src path with
  | [] => none
  | uv :: uvs => bottleneckAux es uv uvs

/-- Insert a path into a list of paths sorted by nondecreasing total
weight. -/
def insertSorted (g : Graph) (src : Nat) (q : List Nat) :
    List (List Nat) → List (List Nat)
  | [] => [q]
  | r :: rs =>
    if pathWeight g src q ≤ pathWeight g src r then q :: r :: rs
    else r :: insertSorted g src q rs

/-- Sort a list of paths by nondecreasing total weight: the k-shortest
enumeration order of spec section 4.3 step 1 (successive paths in
increasing weight order). -/
def sortPaths (g : Graph) (src : Nat) :
    List (List Nat) → List (List Nat)
  | [] => []
  | q :: qs => insertSorted g src q (sortPaths g src qs)

/-- Modelled from the spec: the candidate paths of an app - for the host
and each peer in turn, the simple paths toward that peer enumerated in
increasing weight order (the Yen k-shortest-paths enumeration, whose
code is not among the sources). -/
def appCandidates (g : Graph) (host : Nat) : List Nat → List (List Nat)
  | [] => []
  | peer :: peers =>
    sortPaths g host (allPaths g host peer) ++ appCandidates g host peers

/-- Modelled from the spec: the greedy allocation loop of the app router
(spec section 4.3 step 2; the body is not among the sources). Walk the
candidate paths in order; along each path allocate a gross rate bounded
by its current bottleneck residual capacity, never more than the
remaining deficit, decrementing the graph as in section 4.2 (checked
removal, zero-capacity edges pruned), until the deficit is satisfied or
no candidate with spare capacity remains. Each committed path is
appended as a (net rate, gross rate, path) allocation. -/
def appAllocate (p : ℚ) (src : Nat) :
    List (List Nat) → Graph → ℚ → List (ℚ × ℚ × List Nat) →
    Graph × ℚ × List (ℚ × ℚ × List Nat)
  | [], g, d, acc => (g, d, acc)
  | q :: qs, g, d, acc =>
    if d ≤ 0 then (g, d, acc)
    else
      match bottleneckOf g.edges src q with
      | none => appAllocate p src qs g d acc
      | some B =>
        if B ≤ 0 then appAllocate p src qs g d acc
        else
          match removeCapacityFromPath src q (min d B) g with
          | some g2 =>
            appAllocate p src qs g2 (d - min d B)
              (acc ++ [(netRate p (min d B), min d B, q)])
          | none => appAllocate p src qs g d acc

/-- Modelled from the spec: validation of an app descriptor (spec
section 7: ill-formed demand means equal source/destination or unknown
vertex) - the host exists and every peer exists and differs from the
host. -/
def validApp (g : Graph) (app : AppDescriptor) : Bool :=
  app.theHost < g.numVertices &&
    app.thePeers.all (fun peer =>
      peer != app.theHost && peer < g.numVertices)

/-- Modelled from the spec: processing of a single app (spec section
4.3; the body is not among the sources). The per-call deficit is the
carried-over deficit plus a priority-proportional quantum (the spec
leaves the exact quantum open, describing it only as analogous to
deficit-based fair queuing; here one round credits the priority weight);
allocation is greedy over the candidate paths; the remaining deficit is
carried over and the search counter advances once per peer. -/
def routeAppOne (p : ℚ) (g : Graph) (app : AppDescriptor) :
    Graph × AppDescriptor :=
  ((appAllocate p app.theHost (appCandidates g app.theHost app.thePeers)
      g (app.theDelta + app.thePriority) []).1,
   { app with
       thePaths := app.thePaths ++
         (appAllocate p app.theHost
           (appCandidates g app.theHost app.thePeers)
           g (app.theDelta + app.thePriority) []).2.2
       theDelta := (appAllocate p app.theHost
         (appCandidates g app.theHost app.thePeers)
         g (app.theDelta + app.thePriority) []).2.1
       theYen := app.theYen + app.thePeers.length })

/-- Modelled from the spec: the sequential admission loop over apps -
apps are processed strictly in caller-supplied order, later apps seeing
the capacity consumed by earlier ones. -/
def appLoop (p : ℚ) (g : Graph) :
    List AppDescriptor → Graph × List AppDescriptor
  | [] => (g, [])
  | a :: rest =>
    ((appLoop p (routeAppOne p g a).1 rest).1,
      (routeAppOne p g a).2 :: (appLoop p (routeAppOne p g a).1 rest).2)

/-- Modelled from the spec: the app-admission entry point, analogous to
route (spec section 6): validate every descriptor before executing any,
an ill-formed one raising MalformedRequestError with the state
unchanged; otherwise admit the apps sequentially. -/
def routeApps (net : CapacityNetwork) (aApps : List AppDescriptor) :
    AppRouteOutcome :=
  if aApps.all (validApp net.theGraph) then
    { theError := none
      theNetwork := { net with
        theGraph :=
          (appLoop net.theMeasurementProbability net.theGraph aApps).1 }
      theApps :=
        (appLoop net.theMeasurementProbability net.theGraph aApps).2 }
  else
    { theError := some RouteError.malformedRequest
      theNetwork := net
      theApps := aApps }

/-- One admission call against the network: either a batch of flows with
a feasibility predicate (the Flow Router) or a batch of apps (the App
Router). -/
inductive AdmissionCall where
  | flows (aFlows : List FlowDescriptor)
      (aCheckFunction : FlowDescriptor → Bool)
  | apps (aApps : List AppDescriptor)

/-- The network state after one admission call; a failed call leaves the
state unchanged. -/
def applyCall (net : CapacityNetwork) : AdmissionCall → CapacityNetwork
  | AdmissionCall.flows aFlows aCheckFunction =>
    (route net aFlows aCheckFunction).theNetwork
  | AdmissionCall.apps aApps => (routeApps net aApps).theNetwork

/-- A sequence of admission calls (flows and apps); the network state
resulting from each call is passed to the next. -/
def admissionCalls (net : CapacityNetwork) :
    List AdmissionCall → CapacityNetwork
  | [] => net
  | c :: cs => admissionCalls (applyCall net c) cs

/-- The (src, dst) keys of an edge list, in order. -/
def edgeKeys (es : List Edge) : List (Nat × Nat) :=
  es.map (fun e => (e.src, e.dst))

/-- The spec's data model keys each edge by its (source, destination)
pair: an edge list is well formed when no key repeats. -/
def keysNodup (es : List Edge) : Prop :=
  (edgeKeys es).Nodup

/-! ## Lemmas about the path enumeration -/

theorem pathsAux_mem {g : Graph} {visited : List Nat} {cur dst : Nat} :
    ∀ {fuel : Nat} {q : List Nat}, q ∈ pathsAux g visited cur dst fuel →
      q.Nodup ∧ ∀ x ∈ q, x ∉ visited := by
  intro fuel
  induction fuel generalizing visited cur with
  | zero => intro q hq; simp [pathsAux] at hq
  | succ fuel ih =>
    intro q hq
    by_cases hcd : cur = dst
    · simp [pathsAux, hcd] at hq
      subst hq
      simp
    · simp only [pathsAux, if_neg hcd, List.mem_flatMap] at hq
      obtain ⟨v, _hv, hq⟩ := hq
      by_cases hvis : v ∈ visited
      · simp [hvis] at hq
      · simp only [if_neg hvis, List.mem_map] at hq
        obtain ⟨q', hq', rfl⟩ := hq
        obtain ⟨hnd, havoid⟩ := ih hq'
        refine ⟨?_, ?_⟩
        · refine List.nodup_cons.2 ⟨?_, hnd⟩
          intro hvq
          exact havoid v hvq (List.mem_cons_self v visited)
        · intro x hx
          rcases List.mem_cons.1 hx with rfl | hx'
          · exact hvis
          · intro hxv
            exact havoid x hx' (List.mem_cons_of_mem v hxv)

theorem pathsAux_ne_nil {g : Graph} {visited : List Nat} {cur dst : Nat}
    {fuel : Nat} {q : List Nat} (hcd : cur ≠ dst)
    (hq : q ∈ pathsAux g visited cur dst fuel) : q ≠ [] := by
  cases fuel with
  | zero => simp [pathsAux] at hq
  | succ fuel =>
    simp only [pathsAux, if_neg hcd, List.mem_flatMap] at hq
    obtain ⟨v, _hv, hq⟩ := hq
    by_cases hvis : v ∈ visited
    · simp [hvis] at hq
    · simp only [if_neg hvis, List.mem_map] at hq
      obtain ⟨q', _, rfl⟩ := hq
      simp

theorem foldl_pickShorter_mem (g : Graph) (src : Nat) :
    ∀ (ps : List (List Nat)) (p : List Nat),
      ps.foldl (pickShorter g src) p ∈ p :: ps := by
  intro ps
  induction ps with
  | nil => intro p; simp
  | cons q ps ih =>
    intro p
    have h := ih (pickShorter g src p q)
    rcases List.mem_cons.1 h with h' | h'
    · rw [List.foldl_cons, h']
      unfold pickShorter
      split
      · exact List.mem_cons_of_mem _ (List.mem_cons_self _ _)
      · exact List.mem_cons_self _ _
    · exact List.mem_cons_of_mem _ (List.mem_cons_of_mem _ h')

theorem shortestPath_mem {g : Graph} {src dst : Nat} {q : List Nat}
    (h : shortestPath g src dst = some q) : q ∈ allPaths g src dst := by
  have key : ∀ l : List (List Nat),
      (match l with
       | [] => none
       | p :: ps => some (ps.foldl (pickShorter g src) p)) = some q →
      q ∈ l := by
    intro l hl
    cases l with
    | nil => simp at hl
    | cons p ps =>
      simp only [Option.some.injEq] at hl
      rw [← hl]
      exact foldl_pickShorter_mem g src ps p
  unfold shortestPath at h
  exact key _ h

theorem shortestPath_props {g : Graph} {src dst : Nat} {q : List Nat}
    (h : shortestPath g src dst = some q) :
    q.Nodup ∧ src ∉ q ∧ (src ≠ dst → q ≠ []) := by
  have hmem : q ∈ allPaths g src dst := shortestPath_mem h
  have hprops := pathsAux_mem (g := g) hmem
  refine ⟨hprops.1, ?_, ?_⟩
  · intro hsrc
    exact hprops.2 src hsrc (by simp)
  · intro hne
    exact pathsAux_ne_nil hne hmem

theorem zip_tail_nodup : ∀ (l : List Nat), l.Nodup → (l.zip l.tail).Nodup := by
  intro l
  induction l with
  | nil => intro; simp
  | cons x xs ih =>
    intro hnd
    cases xs with
    | nil => simp
    | cons y ys =>
      simp only [List.tail_cons, List.zip_cons_cons]
      refine List.nodup_cons.2 ⟨?_, ?_⟩
      · intro hmem
        have hx : x ∈ y :: ys := (List.of_mem_zip hmem).1
        exact (List.nodup_cons.1 hnd).1 hx
      · exact ih (List.nodup_cons.1 hnd).2

theorem pathPairs_nodup {src : Nat} {path : List Nat}
    (hsrc : src ∉ path) (hnd : path.Nodup) : (pathPairs src path).Nodup := by
  have : (src :: path).Nodup := List.nodup_cons.2 ⟨hsrc, hnd⟩
  have h := zip_tail_nodup (src :: path) this
  simpa [pathPairs] using h

/-! ## Lemmas about the capacity mutation primitives -/

theorem findWeightL_cons (e : Edge) (es : List Edge) (u v : Nat) :
    findWeightL (e :: es) u v =
      if e.src = u ∧ e.dst = v then some e.weight else findWeightL es u v := by
  by_cases h : e.src = u ∧ e.dst = v
  · rw [if_pos h]
    unfold findWeightL
    rw [List.find?_cons_of_pos]
    · rfl
    · simp [h.1, h.2]
  · rw [if_neg h]
    unfold findWeightL
    rw [List.find?_cons_of_neg]
    simp only [Bool.and_eq_true, beq_iff_eq]
    tauto

theorem edgeCanSupport_iff (es : List Edge) (a : ℚ) (uv : Nat × Nat) :
    edgeCanSupport es a uv = true ↔
      ∃ w, findWeightL es uv.1 uv.2 = some w ∧ a ≤ w := by
  unfold edgeCanSupport
  cases h : findWeightL es uv.1 uv.2 with
  | none => simp
  | some w => simp

theorem adjustEdge_other {uv p : Nat × Nat} (a : ℚ) (es : List Edge)
    (hne : uv ≠ p) :
    findWeightL (adjustEdge p.1 p.2 a es) uv.1 uv.2 =
      findWeightL es uv.1 uv.2 := by
  obtain ⟨u, v⟩ := uv
  obtain ⟨u', v'⟩ := p
  simp only [] at hne ⊢
  induction es with
  | nil => rfl
  | cons e es ih =>
    unfold adjustEdge
    by_cases h : e.src = u' ∧ e.dst = v'
    · rw [if_pos h]
      have hneq : ¬(e.src = u ∧ e.dst = v) := by
        rintro ⟨rfl, rfl⟩
        exact hne (by rw [h.1, h.2])
      split
      · rw [findWeightL_cons, if_neg hneq]
      · rw [findWeightL_cons, if_neg hneq, findWeightL_cons, if_neg hneq]
    · rw [if_neg h]
      by_cases h2 : e.src = u ∧ e.dst = v
      · rw [findWeightL_cons, if_pos h2, findWeightL_cons, if_pos h2]
      · rw [findWeightL_cons, if_neg h2, findWeightL_cons, if_neg h2, ih]

theorem adjustEdge_nonneg {u v : Nat} {a : ℚ} {es : List Edge}
    (h0 : ∀ e ∈ es, 0 ≤ e.weight)
    (hcap : ∀ w, findWeightL es u v = some w → a ≤ w) :
    ∀ e ∈ adjustEdge u v a es, 0 ≤ e.weight := by
  induction es with
  | nil => intro e he; simp [adjustEdge] at he
  | cons e es ih =>
    intro e' he'
    unfold adjustEdge at he'
    by_cases h : e.src = u ∧ e.dst = v
    · rw [if_pos h] at he'
      have hw : a ≤ e.weight := by
        apply hcap
        rw [findWeightL_cons, if_pos h]
      split at he'
      · exact h0 e' (List.mem_cons_of_mem e he')
      · rcases List.mem_cons.1 he' with rfl | hmem
        · simpa using hw
        · exact h0 e' (List.mem_cons_of_mem e hmem)
    · rw [if_neg h] at he'
      rcases List.mem_cons.1 he' with rfl | hmem
      · exact h0 e' (List.mem_cons_self _ _)
      · refine ih (fun x hx => h0 x (List.mem_cons_of_mem e hx)) ?_ e' hmem
        intro w hw
        apply hcap
        rw [findWeightL_cons, if_neg h]
        exact hw

theorem adjustEdge_keys_sublist (u v : Nat) (a : ℚ) (es : List Edge) :
    List.Sublist (edgeKeys (adjustEdge u v a es)) (edgeKeys es) := by
  induction es with
  | nil => simp [adjustEdge]
  | cons e es ih =>
    unfold adjustEdge
    by_cases h : e.src = u ∧ e.dst = v
    · rw [if_pos h]
      split
      · exact List.sublist_cons_self _ _
      · simp only [edgeKeys, List.map_cons]
        exact List.Sublist.cons₂ _ (List.Sublist.refl _)
    · rw [if_neg h]
      simp only [edgeKeys, List.map_cons]
      exact List.Sublist.cons₂ _ ih

theorem adjustEdge_keysNodup {u v : Nat} {a : ℚ} {es : List Edge}
    (h : keysNodup es) : keysNodup (adjustEdge u v a es) :=
  h.sublist (adjustEdge_keys_sublist u v a es)

theorem findWeightL_eq_none_of_key_not_mem {es : List Edge} {u v : Nat}
    (h : (u, v) ∉ edgeKeys es) : findWeightL es u v = none := by
  induction es with
  | nil => rfl
  | cons e es ih =>
    rw [findWeightL_cons]
    have hne : ¬(e.src = u ∧ e.dst = v) := by
      rintro ⟨rfl, rfl⟩
      exact h (by simp [edgeKeys])
    rw [if_neg hne]
    exact ih (fun hm => h (by simp [edgeKeys] at hm ⊢; tauto))

theorem adjustEdge_self {u v : Nat} {a w : ℚ} {es : List Edge}
    (hnd : keysNodup es) (hw : findWeightL es u v = some w) :
    edgeCapacityL (adjustEdge u v a es) u v = w - a := by
  induction es with
  | nil => simp [findWeightL] at hw
  | cons e es ih =>
    rw [findWeightL_cons] at hw
    unfold adjustEdge
    by_cases h : e.src = u ∧ e.dst = v
    · rw [if_pos h] at hw ⊢
      have hkey : (u, v) ∉ edgeKeys es := by
        have := (List.nodup_cons.1 hnd).1
        rw [← h.1, ← h.2]
        simpa [edgeKeys] using this
      have hwe : e.weight = w := by simpa using hw
      split
      · rename_i hz
        unfold edgeCapacityL
        rw [findWeightL_eq_none_of_key_not_mem hkey]
        simp only [Option.getD_none]
        rw [← hwe]
        linarith [hz]
      · unfold edgeCapacityL
        rw [findWeightL_cons]
        simp only [if_pos h]
        simp [hwe]
    · rw [if_neg h] at hw ⊢
      unfold edgeCapacityL
      rw [findWeightL_cons, if_neg h]
      exact ih (List.nodup_cons.1 hnd).2 hw

theorem fold_adjust_other {a : ℚ} {uv : Nat × Nat} :
    ∀ {pairs : List (Nat × Nat)} {es : List Edge}, uv ∉ pairs →
      findWeightL
          (pairs.foldl (fun es p => adjustEdge p.1 p.2 a es) es) uv.1 uv.2 =
        findWeightL es uv.1 uv.2 := by
  intro pairs
  induction pairs with
  | nil => intro es _; rfl
  | cons p ps ih =>
    intro es hm
    rw [List.foldl_cons]
    rw [ih (fun h => hm (List.mem_cons_of_mem p h))]
    apply adjustEdge_other
    intro h
    rw [Prod.mk.injEq] at h
    exact hm (Prod.ext h.1 h.2 ▸ List.mem_cons_self p ps)

theorem fold_adjust_nonneg {a : ℚ} :
    ∀ {pairs : List (Nat × Nat)} {es : List Edge}, pairs.Nodup →
      (∀ e ∈ es, 0 ≤ e.weight) →
      (∀ uv ∈ pairs, edgeCanSupport es a uv = true) →
      ∀ e ∈ pairs.foldl (fun es p => adjustEdge p.1 p.2 a es) es,
        0 ≤ e.weight := by
  intro pairs
  induction pairs with
  | nil => intro es _ h0 _; simpa using h0
  | cons p ps ih =>
    intro es hnd h0 hsup
    rw [List.foldl_cons]
    have hp := (edgeCanSupport_iff es a p).1 (hsup p (List.mem_cons_self _ _))
    obtain ⟨w, hw, haw⟩ := hp
    have h0' : ∀ e ∈ adjustEdge p.1 p.2 a es, 0 ≤ e.weight := by
      apply adjustEdge_nonneg h0
      intro w' hw'
      rw [hw] at hw'
      cases hw'
      exact haw
    refine ih (List.nodup_cons.1 hnd).2 h0' ?_
    intro uv huv
    rw [edgeCanSupport_iff]
    have hne : uv ≠ p := by
      rintro rfl
      exact (List.nodup_cons.1 hnd).1 huv
    rw [adjustEdge_other a es hne]
    exact (edgeCanSupport_iff es a uv).1 (hsup uv (List.mem_cons_of_mem p huv))

theorem fold_adjust_decrement {a : ℚ} :
    ∀ {pairs : List (Nat × Nat)} {es : List Edge}, keysNodup es →
      pairs.Nodup →
      (∀ uv ∈ pairs, edgeCanSupport es a uv = true) →
      ∀ uv ∈ pairs,
        edgeCapacityL
            (pairs.foldl (fun es p => adjustEdge p.1 p.2 a es) es) uv.1 uv.2 =
          edgeCapacityL es uv.1 uv.2 - a := by
  intro pairs
  induction pairs with
  | nil => intro es _ _ _ uv huv; simp at huv
  | cons p ps ih =>
    intro es hknd hnd hsup uv huv
    have hpnotin : p ∉ ps := (List.nodup_cons.1 hnd).1
    obtain ⟨w, hw, _⟩ :=
      (edgeCanSupport_iff es a p).1 (hsup p (List.mem_cons_self _ _))
    rw [List.foldl_cons]
    rcases List.mem_cons.1 huv with rfl | huv'
    · unfold edgeCapacityL
      rw [fold_adjust_other hpnotin]
      have hself := adjustEdge_self (a := a) hknd hw
      unfold edgeCapacityL at hself
      rw [hself, hw]
      simp
    · have hne : uv ≠ p := by
        rintro rfl
        exact hpnotin huv'
      have hstep : edgeCapacityL (adjustEdge p.1 p.2 a es) uv.1 uv.2 =
          edgeCapacityL es uv.1 uv.2 := by
        unfold edgeCapacityL
        rw [adjustEdge_other a es hne]
      rw [← hstep]
      apply ih (adjustEdge_keysNodup hknd) (List.nodup_cons.1 hnd).2 ?_ uv huv'
      intro uv' huv'
      rw [edgeCanSupport_iff]
      have hne' : uv' ≠ p := by
        rintro rfl
        exact hpnotin huv'
      rw [adjustEdge_other a es hne']
      exact (edgeCanSupport_iff es a uv').1
        (hsup uv' (List.mem_cons_of_mem p huv'))

/-! ## Lemmas about the router -/

theorem removeCapacityFromPath_some {aSrc : Nat} {aPath : List Nat}
    {aCapacity : ℚ} {aGraph g2 : Graph}
    (h : removeCapacityFromPath aSrc aPath aCapacity aGraph = some g2) :
    checkCapacity aSrc aPath aCapacity aGraph = true ∧
      g2 = { aGraph with
        edges := (pathPairs aSrc aPath).foldl
          (fun es uv => adjustEdge uv.1 uv.2 aCapacity es) aGraph.edges } := by
  unfold removeCapacityFromPath at h
  split at h
  · refine ⟨by assumption, ?_⟩
    simpa using h.symm
  · simp at h

theorem removeCapacityFromPath_reject {aSrc : Nat} {aPath : List Nat}
    {aCapacity : ℚ} {aGraph : Graph}
    (h : checkCapacity aSrc aPath aCapacity aGraph = false) :
    removeCapacityFromPath aSrc aPath aCapacity aGraph = none := by
  unfold removeCapacityFromPath
  rw [h]
  simp

/-- Case analysis for the processing of one flow: either the graph is
unchanged and the descriptor only gains one search, or a path was found,
accepted, capacity-checked, and committed. -/
theorem routeOne_cases {p : ℚ} {check : FlowDescriptor → Bool}
    {g g' : Graph} {f f' : FlowDescriptor}
    (h : routeOne p check g f = (g', f')) :
    (g' = g ∧ f' = { f with theDijsktra := f.theDijsktra + 1 })
  ∨ (∃ path, shortestPath g f.theSrc f.theDst = some path ∧
      check { f with theDijsktra := f.theDijsktra + 1, thePath := path }
        = true ∧
      netRate p (f.theNetRate / p) ≥ f.theNetRate ∧
      checkCapacity f.theSrc path (f.theNetRate / p) g = true ∧
      g' = { g with
               edges := (pathPairs f.theSrc path).foldl
                 (fun es uv => adjustEdge uv.1 uv.2 (f.theNetRate / p) es)
                 g.edges } ∧
      f' = { f with
               theDijsktra := f.theDijsktra + 1
               thePath := path
               theGrossRate := f.theNetRate / p }) := by
  unfold routeOne at h
  split at h
  · left
    rw [Prod.mk.injEq] at h
    exact ⟨h.1.symm, h.2.symm⟩
  · rename_i path hsp
    split at h
    · split at h
      · split at h
        · rename_i g2 hrem
          obtain ⟨hcap, hg2⟩ := removeCapacityFromPath_some hrem
          rw [Prod.mk.injEq] at h
          right
          refine ⟨path, hsp, by assumption, by assumption, hcap, ?_, h.2.symm⟩
          rw [← h.1, hg2]
        · left
          rw [Prod.mk.injEq] at h
          exact ⟨h.1.symm, h.2.symm⟩
      · left
        rw [Prod.mk.injEq] at h
        exact ⟨h.1.symm, h.2.symm⟩
    · left
      rw [Prod.mk.injEq] at h
      exact ⟨h.1.symm, h.2.symm⟩

/-- In the committed case the hop pairs of the admitted path have no
repetition and each of them can support the removed capacity. -/
theorem checkCapacity_all {aSrc : Nat} {aPath : List Nat} {aCapacity : ℚ}
    {aGraph : Graph} (h : checkCapacity aSrc aPath aCapacity aGraph = true) :
    ∀ uv ∈ pathPairs aSrc aPath, edgeCanSupport aGraph.edges aCapacity uv
      = true := by
  intro uv huv
  exact List.all_eq_true.1 h uv huv

/-- Processing one flow preserves nonnegativity of all residual
capacities. -/
theorem routeOne_nonneg {p : ℚ} {check : FlowDescriptor → Bool}
    {g g' : Graph} {f f' : FlowDescriptor}
    (h : routeOne p check g f = (g', f'))
    (h0 : ∀ e ∈ g.edges, 0 ≤ e.weight) :
    ∀ e ∈ g'.edges, 0 ≤ e.weight := by
  rcases routeOne_cases h with ⟨rfl, _⟩ | ⟨path, hsp, _, _, hcap, hg', _⟩
  · exact h0
  · rw [hg']
    obtain ⟨hnd, hsrc, _⟩ := shortestPath_props hsp
    exact fold_adjust_nonneg (pathPairs_nodup hsrc hnd) h0
      (checkCapacity_all hcap)

/-- The sequential admission loop preserves nonnegativity of all residual
capacities. -/
theorem routeLoop_nonneg {p : ℚ} {check : FlowDescriptor → Bool} :
    ∀ {flows : List FlowDescriptor} {g : Graph},
      (∀ e ∈ g.edges, 0 ≤ e.weight) →
      ∀ e ∈ (routeLoop p check g flows).1.edges, 0 ≤ e.weight := by
  intro flows
  induction flows with
  | nil => intro g h0; simpa [routeLoop] using h0
  | cons f fs ih =>
    intro g h0
    have hro : routeOne p check g f
        = ((routeOne p check g f).1, (routeOne p check g f).2) := rfl
    have hstep := routeOne_nonneg hro h0
    simpa [routeLoop] using ih hstep

/-- A route call preserves nonnegativity of all residual capacities. -/
theorem route_nonneg {net : CapacityNetwork} {flows : List FlowDescriptor}
    {check : FlowDescriptor → Bool}
    (h0 : ∀ e ∈ net.theGraph.edges, 0 ≤ e.weight) :
    ∀ e ∈ (route net flows check).theNetwork.theGraph.edges, 0 ≤ e.weight := by
  unfold route
  split
  · exact routeLoop_nonneg h0
  · exact h0

/-- The output descriptors of the admission loop: an unrouted flow keeps
an empty path and zero gross rate, a routed flow has a realized net rate
at least the requested one. -/
theorem routeLoop_flows {p : ℚ} {check : FlowDescriptor → Bool} :
    ∀ {flows : List FlowDescriptor} {g : Graph},
      (∀ f ∈ flows,
        f.thePath = [] ∧ f.theGrossRate = 0 ∧ f.theSrc ≠ f.theDst) →
      ∀ f' ∈ (routeLoop p check g flows).2,
        (f'.thePath = [] → f'.theGrossRate = 0) ∧
        (f'.thePath ≠ [] → netRate p f'.theGrossRate ≥ f'.theNetRate) := by
  intro flows
  induction flows with
  | nil => intro g _ f' hf'; simp [routeLoop] at hf'
  | cons f fs ih =>
    intro g hin f' hf'
    obtain ⟨hpath, hgross, hsd⟩ := hin f (List.mem_cons_self _ _)
    rcases hro : routeOne p check g f with ⟨g1, f1⟩
    rw [routeLoop] at hf'
    rw [hro] at hf'
    simp only [List.mem_cons] at hf'
    rcases hf' with rfl | hf'
    · rcases routeOne_cases hro with
        ⟨_, hf1⟩ | ⟨path, hsp, _, hguard, _, _, hf1⟩
      · rw [hf1]
        refine ⟨fun _ => hgross, fun hne => absurd hpath hne⟩
      · rw [hf1]
        have hne : path ≠ [] := (shortestPath_props hsp).2.2 hsd
        refine ⟨fun hc => absurd hc hne, fun _ => hguard⟩
    · exact ih (fun x hx => hin x (List.mem_cons_of_mem f hx)) f' hf'

/-- Membership in a sorted insertion comes from the inserted path or the
list. -/
theorem mem_insertSorted {g : Graph} {src : Nat} {q q' : List Nat} :
    ∀ {l : List (List Nat)}, q' ∈ insertSorted g src q l →
      q' = q ∨ q' ∈ l := by
  intro l
  induction l with
  | nil => intro h; simpa [insertSorted] using h
  | cons r rs ih =>
    intro h
    rw [insertSorted] at h
    split at h
    · rcases List.mem_cons.1 h with rfl | h'
      · exact Or.inl rfl
      · exact Or.inr h'
    · rcases List.mem_cons.1 h with rfl | h'
      · exact Or.inr (List.mem_cons_self _ _)
      · rcases ih h' with h'' | h''
        · exact Or.inl h''
        · exact Or.inr (List.mem_cons_of_mem _ h'')

/-- Sorting paths by weight preserves membership. -/
theorem mem_sortPaths {g : Graph} {src : Nat} {q' : List Nat} :
    ∀ {l : List (List Nat)}, q' ∈ sortPaths g src l → q' ∈ l := by
  intro l
  induction l with
  | nil => intro h; simpa [sortPaths] using h
  | cons q qs ih =>
    intro h
    rw [sortPaths] at h
    rcases mem_insertSorted h with rfl | h'
    · exact List.mem_cons_self _ _
    · exact List.mem_cons_of_mem _ (ih h')

/-- Every candidate path of an app is a simple path of the enumeration
toward some peer. -/
theorem appCandidates_mem {g : Graph} {host : Nat} {q : List Nat} :
    ∀ {peers : List Nat}, q ∈ appCandidates g host peers →
      ∃ peer, q ∈ allPaths g host peer := by
  intro peers
  induction peers with
  | nil => intro h; simp [appCandidates] at h
  | cons peer peers ih =>
    intro h
    rw [appCandidates] at h
    rcases List.mem_append.1 h with h' | h'
    · exact ⟨peer, mem_sortPaths h'⟩
    · exact ih h'

/-- The hop pairs of an enumerated simple path have no repetition. -/
theorem allPaths_pairs_nodup {g : Graph} {src dst : Nat} {q : List Nat}
    (h : q ∈ allPaths g src dst) : (pathPairs src q).Nodup := by
  have h2 := pathsAux_mem (g := g) h
  apply pathPairs_nodup ?_ h2.1
  intro hsrc
  exact h2.2 src hsrc (by simp)

/-- The greedy allocation loop of the app router preserves nonnegativity
of all residual capacities. -/
theorem appAllocate_nonneg {p : ℚ} {src : Nat} :
    ∀ {qs : List (List Nat)} {g : Graph} {d : ℚ}
      {acc : List (ℚ × ℚ × List Nat)},
      (∀ q ∈ qs, (pathPairs src q).Nodup) →
      (∀ e ∈ g.edges, 0 ≤ e.weight) →
      ∀ e ∈ (appAllocate p src qs g d acc).1.edges, 0 ≤ e.weight := by
  intro qs
  induction qs with
  | nil => intro g d acc _ h0; simpa [appAllocate] using h0
  | cons q qs ih =>
    intro g d acc hnd h0
    rw [appAllocate]
    split
    · simpa using h0
    · split
      · exact ih (fun r hr => hnd r (List.mem_cons_of_mem q hr)) h0
      · split
        · exact ih (fun r hr => hnd r (List.mem_cons_of_mem q hr)) h0
        · split
          · rename_i g2 hrem
            obtain ⟨hcap, hg2⟩ := removeCapacityFromPath_some hrem
            refine ih (fun r hr => hnd r (List.mem_cons_of_mem q hr)) ?_
            rw [hg2]
            exact fold_adjust_nonneg (hnd q (List.mem_cons_self _ _)) h0
              (checkCapacity_all hcap)
          · exact ih (fun r hr => hnd r (List.mem_cons_of_mem q hr)) h0

/-- One committing step of the greedy allocation loop: with a positive
remaining deficit, a positive bottleneck, and a successful checked
removal, the allocation is recorded and the loop continues on the
updated graph. -/
theorem appAllocate_step (p : ℚ) (src : Nat) (q : List Nat)
    (qs : List (List Nat)) (g g2 : Graph) (d B : ℚ)
    (acc : List (ℚ × ℚ × List Nat))
    (hd : ¬d ≤ 0) (hbot : bottleneckOf g.edges src q = some B)
    (hB : ¬B ≤ 0)
    (hrem : removeCapacityFromPath src q (min d B) g = some g2) :
    appAllocate p src (q :: qs) g d acc =
      appAllocate p src qs g2 (d - min d B)
        (acc ++ [(netRate p (min d B), min d B, q)]) := by
  rw [appAllocate, if_neg hd]
  simp only [hbot]
  rw [if_neg hB]
  simp only [hrem]

/-- Processing one app preserves nonnegativity of all residual
capacities. -/
theorem routeAppOne_nonneg {p : ℚ} {g : Graph} {app : AppDescriptor}
    (h0 : ∀ e ∈ g.edges, 0 ≤ e.weight) :
    ∀ e ∈ (routeAppOne p g app).1.edges, 0 ≤ e.weight := by
  unfold routeAppOne
  apply appAllocate_nonneg ?_ h0
  intro q hq
  obtain ⟨peer, hpeer⟩ := appCandidates_mem hq
  exact allPaths_pairs_nodup hpeer

/-- The sequential app admission loop preserves nonnegativity of all
residual capacities. -/
theorem appLoop_nonneg {p : ℚ} :
    ∀ {apps : List AppDescriptor} {g : Graph},
      (∀ e ∈ g.edges, 0 ≤ e.weight) →
      ∀ e ∈ (appLoop p g apps).1.edges, 0 ≤ e.weight := by
  intro apps
  induction apps with
  | nil => intro g h0; simpa [appLoop] using h0
  | cons a rest ih =>
    intro g h0
    have hstep : ∀ e ∈ (routeAppOne p g a).1.edges, 0 ≤ e.weight :=
      routeAppOne_nonneg h0
    simpa [appLoop] using ih hstep

/-- An app-admission call preserves nonnegativity of all residual
capacities. -/
theorem routeApps_nonneg {net : CapacityNetwork}
    {aApps : List AppDescriptor}
    (h0 : ∀ e ∈ net.theGraph.edges, 0 ≤ e.weight) :
    ∀ e ∈ (routeApps net aApps).theNetwork.theGraph.edges, 0 ≤ e.weight := by
  unfold routeApps
  split
  · exact appLoop_nonneg h0
  · exact h0

/-- Any admission call, for flows or for apps, preserves nonnegativity
of all residual capacities. -/
theorem applyCall_nonneg {net : CapacityNetwork} {c : AdmissionCall}
    (h0 : ∀ e ∈ net.theGraph.edges, 0 ≤ e.weight) :
    ∀ e ∈ (applyCall net c).theGraph.edges, 0 ≤ e.weight := by
  cases c with
  | flows aFlows aCheckFunction => exact route_nonneg h0
  | apps aApps => exact routeApps_nonneg h0

/-- Any sequence of admission calls (flows and apps) preserves
nonnegativity of all residual capacities. -/
theorem admissionCalls_nonneg :
    ∀ {calls : List AdmissionCall} {net : CapacityNetwork},
      (∀ e ∈ net.theGraph.edges, 0 ≤ e.weight) →
      ∀ e ∈ (admissionCalls net calls).theGraph.edges, 0 ≤ e.weight := by
  intro calls
  induction calls with
  | nil => intro net h0; simpa [admissionCalls] using h0
  | cons c cs ih =>
    intro net h0
    rw [admissionCalls]
    exact ih (applyCall_nonneg h0)

/-- When a path is found, accepted by the feasibility predicate, able to
realize the requested net rate, and capacity-checked, the flow commits:
the path edges are decremented and the descriptor records path and gross
rate. -/
theorem routeOne_commit (p : ℚ) (check : FlowDescriptor → Bool) (g : Graph)
    (f : FlowDescriptor) (path : List Nat)
    (hsp : shortestPath g f.theSrc f.theDst = some path)
    (hchk : check { f with theDijsktra := f.theDijsktra + 1, thePath := path }
      = true)
    (hguard : netRate p (f.theNetRate / p) ≥ f.theNetRate)
    (hcap : checkCapacity f.theSrc path (f.theNetRate / p) g = true) :
    routeOne p check g f =
      ({ g with
           edges := (pathPairs f.theSrc path).foldl
             (fun es uv => adjustEdge uv.1 uv.2 (f.theNetRate / p) es)
             g.edges },
       { f with
           theDijsktra := f.theDijsktra + 1
           thePath := path
           theGrossRate := f.theNetRate / p }) := by
  unfold routeOne
  rw [hsp]
  simp only [hchk, if_true]
  rw [if_pos hguard]
  unfold removeCapacityFromPath
  rw [hcap]
  simp

/-- Evaluation of a route call on the single-edge graph 0 -> 1 of
capacity C for one flow of requested net rate R ≤ C: the flow commits
with gross rate R. -/
theorem route_single_edge (C R : ℚ) (hRC : R ≤ C) :
    route (CapacityNetwork.mkFromWeights [(0, 1, C)])
        [FlowDescriptor.make 0 1 R] (fun _ => true) =
      { theError := none
        theNetwork :=
          { theGraph := Graph.mk 2 (adjustEdge 0 1 R [Edge.mk 0 1 C])
            theMeasurementProbability := 1 }
        theFlows :=
          [{ theSrc := 0, theDst := 1, theNetRate := R, thePath := [1],
             theGrossRate := R, theDijsktra := 1 }] } := by
  have hdiv : R / (1 : ℚ) = R := div_one R
  have hsp : shortestPath (Graph.mk 2 [Edge.mk 0 1 C]) 0 1 = some [1] := rfl
  have hfw : findWeightL [Edge.mk 0 1 C] 0 1 = some C := rfl
  have hcap : checkCapacity 0 [1] (R / 1) (Graph.mk 2 [Edge.mk 0 1 C])
      = true := by
    unfold checkCapacity
    have hpp : pathPairs 0 [1] = [(0, 1)] := rfl
    rw [hpp]
    simp only [List.all_cons, List.all_nil, Bool.and_true]
    unfold edgeCanSupport
    rw [show ((0, 1) : Nat × Nat).1 = 0 from rfl,
      show ((0, 1) : Nat × Nat).2 = 1 from rfl, hfw, hdiv]
    simpa using hRC
  have hro : routeOne 1 (fun _ => true) (Graph.mk 2 [Edge.mk 0 1 C])
      (FlowDescriptor.make 0 1 R) =
      (Graph.mk 2 (adjustEdge 0 1 (R / 1) [Edge.mk 0 1 C]),
       { theSrc := 0, theDst := 1, theNetRate := R, thePath := [1],
         theGrossRate := R / 1, theDijsktra := 1 }) := by
    have h := routeOne_commit 1 (fun _ => true)
      (Graph.mk 2 [Edge.mk 0 1 C]) (FlowDescriptor.make 0 1 R)
      [1] hsp rfl
      (by show (1 : ℚ) * (R / 1) ≥ R; rw [hdiv, one_mul]) hcap
    rw [h]
    rfl
  have hroute : route (CapacityNetwork.mkFromWeights [(0, 1, C)])
      [FlowDescriptor.make 0 1 R] (fun _ => true) =
      { theError := none
        theNetwork :=
          { theGraph :=
              Graph.mk 2 (adjustEdge 0 1 (R / 1) [Edge.mk 0 1 C])
            theMeasurementProbability := 1 }
        theFlows :=
          [{ theSrc := 0, theDst := 1, theNetRate := R, thePath := [1],
             theGrossRate := R / 1, theDijsktra := 1 }] } := by
    unfold route
    rw [if_pos (by rfl)]
    simp only [routeLoop]
    rw [show (CapacityNetwork.mkFromWeights [(0, 1, C)]).theGraph
        = Graph.mk 2 [Edge.mk 0 1 C] from rfl,
      show (CapacityNetwork.mkFromWeights
        [(0, 1, C)]).theMeasurementProbability = 1 from rfl, hro]
  rw [hroute, hdiv]

/-! ## The claims -/

/-- C1: if any flow descriptor of the batch passed to route is malformed
(source equals destination, or either vertex does not exist in the
graph), route raises MalformedRequestError and every edge weight after
the call equals its weight before the call, even when other descriptors
in the same batch are individually valid. -/
theorem route_malformed_batch_atomic (net : CapacityNetwork)
    (aFlows : List FlowDescriptor) (check : FlowDescriptor → Bool)
    (f : FlowDescriptor) (hmem : f ∈ aFlows)
    (hbad : validFlow net.theGraph f = false) :
    (route net aFlows check).theError = some RouteError.malformedRequest ∧
    (route net aFlows check).theNetwork = net ∧
    ∀ u v : Nat,
      edgeCapacity (route net aFlows check).theNetwork.theGraph u v =
        edgeCapacity net.theGraph u v := by
  have hall : aFlows.all (validFlow net.theGraph) = false := by
    rcases h : aFlows.all (validFlow net.theGraph) with _ | _
    · rfl
    · have := List.all_eq_true.1 h f hmem
      rw [hbad] at this
      cases this
  unfold route
  rw [hall]
  simp

/-- Witness for C1: a batch holding a valid flow and a malformed one
(source 0 equals destination 0) raises and leaves the single edge's
capacity at 5. -/
theorem route_malformed_batch_atomic_witness :
    (route (CapacityNetwork.mkFromWeights [(0, 1, 5)])
        [FlowDescriptor.make 0 1 3, FlowDescriptor.make 0 0 1]
        (fun _ => true)).theError = some RouteError.malformedRequest ∧
    (route (CapacityNetwork.mkFromWeights [(0, 1, 5)])
        [FlowDescriptor.make 0 1 3, FlowDescriptor.make 0 0 1]
        (fun _ => true)).theNetwork =
      CapacityNetwork.mkFromWeights [(0, 1, 5)] ∧
    ∀ u v : Nat,
      edgeCapacity (route (CapacityNetwork.mkFromWeights [(0, 1, 5)])
          [FlowDescriptor.make 0 1 3, FlowDescriptor.make 0 0 1]
          (fun _ => true)).theNetwork.theGraph u v =
        edgeCapacity (CapacityNetwork.mkFromWeights [(0, 1, 5)]).theGraph
          u v :=
  route_malformed_batch_atomic (CapacityNetwork.mkFromWeights [(0, 1, 5)])
    [FlowDescriptor.make 0 1 3, FlowDescriptor.make 0 0 1]
    (fun _ => true) (FlowDescriptor.make 0 0 1) (by decide) (by decide)

/-- C3: setting the measurement probability to a value outside [0, 1]
raises a ConfigurationError and the getter still returns the previous
value; setting a value inside [0, 1] succeeds and the getter returns
it. -/
theorem measurement_probability_set_get (net : CapacityNetwork) (p : ℚ) :
    (¬(0 ≤ p ∧ p ≤ 1) →
      (net.setMeasurementProbability p).1
          = some ConfigError.configurationError ∧
      (net.setMeasurementProbability p).2.measurementProbability
          = net.measurementProbability) ∧
    (0 ≤ p ∧ p ≤ 1 →
      (net.setMeasurementProbability p).1 = none ∧
      (net.setMeasurementProbability p).2.measurementProbability = p) := by
  unfold CapacityNetwork.setMeasurementProbability
    CapacityNetwork.measurementProbability
  constructor
  · intro hout
    rw [if_neg hout]
    exact ⟨rfl, rfl⟩
  · intro hin
    rw [if_pos hin]
    exact ⟨rfl, rfl⟩

/-- Witness for C3: at 3/2 the setter fails and the default 1 remains
readable; at 1/2 it succeeds. -/
theorem measurement_probability_set_get_witness :
    (((CapacityNetwork.mkFromWeights [(0, 1, 5)]).setMeasurementProbability
        (3 / 2)).1 = some ConfigError.configurationError ∧
      ((CapacityNetwork.mkFromWeights [(0, 1, 5)]).setMeasurementProbability
        (3 / 2)).2.measurementProbability
        = (CapacityNetwork.mkFromWeights [(0, 1, 5)]).measurementProbability) ∧
    (((CapacityNetwork.mkFromWeights [(0, 1, 5)]).setMeasurementProbability
        (1 / 2)).1 = none ∧
      ((CapacityNetwork.mkFromWeights [(0, 1, 5)]).setMeasurementProbability
        (1 / 2)).2.measurementProbability = 1 / 2) :=
  ⟨(measurement_probability_set_get
      (CapacityNetwork.mkFromWeights [(0, 1, 5)]) (3 / 2)).1 (by norm_num),
   (measurement_probability_set_get
      (CapacityNetwork.mkFromWeights [(0, 1, 5)]) (1 / 2)).2 (by norm_num)⟩

/-- C9: immediately after construction, with either constructor, the
measurement probability getter returns 1 without any call to the
setter. -/
theorem default_measurement_probability :
    (∀ aEdgeWeights : List (Nat × Nat × ℚ),
      (CapacityNetwork.mkFromWeights aEdgeWeights).measurementProbability
        = 1) ∧
    (∀ (aEdges : List (Nat × Nat)) (aWeightRv : Nat → ℚ)
        (aMakeBidirectional : Bool),
      (CapacityNetwork.mkFromEdges aEdges aWeightRv
          aMakeBidirectional).measurementProbability = 1) :=
  ⟨fun _ => rfl, fun _ _ _ => rfl⟩

/-- C5: on a graph with the single edge 0 -> 1 of capacity C, with the
default measurement probability 1, routing one flow of requested net
rate R with R ≤ C admits it with gross rate exactly R and path [1], and
the edge's capacity becomes exactly C - R afterwards. -/
theorem single_hop_admission (C R : ℚ) (hRC : R ≤ C) :
    (route (CapacityNetwork.mkFromWeights [(0, 1, C)])
        [FlowDescriptor.make 0 1 R] (fun _ => true)).theError = none ∧
    (route (CapacityNetwork.mkFromWeights [(0, 1, C)])
        [FlowDescriptor.make 0 1 R] (fun _ => true)).theFlows =
      [{ theSrc := 0, theDst := 1, theNetRate := R, thePath := [1],
         theGrossRate := R, theDijsktra := 1 }] ∧
    edgeCapacity (route (CapacityNetwork.mkFromWeights [(0, 1, C)])
        [FlowDescriptor.make 0 1 R] (fun _ => true)).theNetwork.theGraph
        0 1 = C - R := by
  rw [route_single_edge C R hRC]
  refine ⟨rfl, rfl, ?_⟩
  unfold edgeCapacity edgeCapacityL
  unfold adjustEdge
  rw [if_pos (⟨rfl, rfl⟩ : (Edge.mk 0 1 C).src = 0 ∧ (Edge.mk 0 1 C).dst = 1)]
  show (findWeightL (if C - R = 0 then [] else [Edge.mk 0 1 (C - R)]) 0 1).getD
      0 = C - R
  by_cases hz : C - R = 0
  · rw [if_pos hz]
    rw [show findWeightL [] 0 1 = none from rfl]
    simp [hz.symm]
  · rw [if_neg hz]
    rw [show findWeightL [Edge.mk 0 1 (C - R)] 0 1 = some (C - R) from rfl]
    rfl

/-- Witness for C5: C = 5, R = 3 admits with gross rate 3, path [1], and
leaves the edge at capacity 2. -/
theorem single_hop_admission_witness :
    (route (CapacityNetwork.mkFromWeights [(0, 1, 5)])
        [FlowDescriptor.make 0 1 3] (fun _ => true)).theError = none ∧
    (route (CapacityNetwork.mkFromWeights [(0, 1, 5)])
        [FlowDescriptor.make 0 1 3] (fun _ => true)).theFlows =
      [{ theSrc := 0, theDst := 1, theNetRate := 3, thePath := [1],
         theGrossRate := 3, theDijsktra := 1 }] ∧
    edgeCapacity (route (CapacityNetwork.mkFromWeights [(0, 1, 5)])
        [FlowDescriptor.make 0 1 3] (fun _ => true)).theNetwork.theGraph
        0 1 = 5 - 3 :=
  single_hop_admission 5 3 (by norm_num)

/-- C6: a structurally valid flow for which no path exists, or whose
discovered path the feasibility predicate rejects, or whose requested
net rate cannot be supported by any simple path, is reported unrouted:
route returns without error, the descriptor keeps an empty path and zero
gross rate (only the search counter advances), and no edge capacity
changes. -/
theorem unroutable_reported_empty (net : CapacityNetwork)
    (f : FlowDescriptor) (check : FlowDescriptor → Bool)
    (hval : validFlow net.theGraph f = true)
    (hpath : f.thePath = []) (hgross : f.theGrossRate = 0)
    (hun :
      shortestPath net.theGraph f.theSrc f.theDst = none
      ∨ (∀ path, shortestPath net.theGraph f.theSrc f.theDst = some path →
          check { f with theDijsktra := f.theDijsktra + 1, thePath := path }
            = false)
      ∨ (∀ q ∈ allPaths net.theGraph f.theSrc f.theDst,
          checkCapacity f.theSrc q
            (f.theNetRate / net.theMeasurementProbability) net.theGraph
            = false)) :
    (route net [f] check).theError = none ∧
    (route net [f] check).theFlows =
      [{ f with theDijsktra := f.theDijsktra + 1 }] ∧
    ({ f with theDijsktra := f.theDijsktra + 1 } : FlowDescriptor).thePath
      = [] ∧
    ({ f with theDijsktra := f.theDijsktra + 1 } :
      FlowDescriptor).theGrossRate = 0 ∧
    (route net [f] check).theNetwork.theGraph.edges = net.theGraph.edges := by
  have hall : ([f].all (validFlow net.theGraph)) = true := by simp [hval]
  rcases hone : routeOne net.theMeasurementProbability check net.theGraph f
    with ⟨g1, f1⟩
  have hcase : g1 = net.theGraph ∧
      f1 = { f with theDijsktra := f.theDijsktra + 1 } := by
    rcases routeOne_cases hone with h | ⟨path, hsp, hchk, _, hcap, _, _⟩
    · exact h
    · exfalso
      rcases hun with hnone | hrej | hnocap
      · rw [hsp] at hnone; cases hnone
      · rw [hrej path hsp] at hchk; cases hchk
      · rw [hnocap path (shortestPath_mem hsp)] at hcap; cases hcap
  have hr : route net [f] check =
      { theError := none
        theNetwork := { net with theGraph := g1 }
        theFlows := [f1] } := by
    unfold route
    rw [if_pos hall]
    simp only [routeLoop]
    rw [hone]
  rw [hr, hcase.1, hcase.2]
  exact ⟨rfl, rfl, hpath, hgross, rfl⟩

/-- Witness for C6: on the single edge 0 -> 1 of capacity 5, requesting
net rate 7 exceeds every simple path's bottleneck, so the flow stays
unrouted and the graph is untouched. -/
theorem unroutable_reported_empty_witness :
    (route (CapacityNetwork.mkFromWeights [(0, 1, 5)])
        [FlowDescriptor.make 0 1 7] (fun _ => true)).theError = none ∧
    (route (CapacityNetwork.mkFromWeights [(0, 1, 5)])
        [FlowDescriptor.make 0 1 7] (fun _ => true)).theFlows =
      [{ FlowDescriptor.make 0 1 7 with
           theDijsktra := (FlowDescriptor.make 0 1 7).theDijsktra + 1 }] ∧
    ({ FlowDescriptor.make 0 1 7 with
        theDijsktra := (FlowDescriptor.make 0 1 7).theDijsktra + 1 } :
      FlowDescriptor).thePath = [] ∧
    ({ FlowDescriptor.make 0 1 7 with
        theDijsktra := (FlowDescriptor.make 0 1 7).theDijsktra + 1 } :
      FlowDescriptor).theGrossRate = 0 ∧
    (route (CapacityNetwork.mkFromWeights [(0, 1, 5)])
        [FlowDescriptor.make 0 1 7]
        (fun _ => true)).theNetwork.theGraph.edges =
      (CapacityNetwork.mkFromWeights [(0, 1, 5)]).theGraph.edges :=
  unroutable_reported_empty (CapacityNetwork.mkFromWeights [(0, 1, 5)])
    (FlowDescriptor.make 0 1 7) (fun _ => true) (by decide) (by decide)
    (by decide)
    (Or.inr (Or.inr (by
      intro q hq
      have hq' : q = [1] := by
        have hall : allPaths
            (CapacityNetwork.mkFromWeights [(0, 1, 5)]).theGraph
            (FlowDescriptor.make 0 1 7).theSrc
            (FlowDescriptor.make 0 1 7).theDst = [[1]] := rfl
        rw [hall] at hq
        simpa using hq
      subst hq'
      show checkCapacity 0 [1] ((7 : ℚ) / 1)
        (Graph.mk 2 [Edge.mk 0 1 5]) = false
      unfold checkCapacity
      rw [show pathPairs 0 [1] = [(0, 1)] from rfl]
      simp only [List.all_cons, List.all_nil, Bool.and_true]
      unfold edgeCanSupport
      rw [show findWeightL [Edge.mk 0 1 (5 : ℚ)] 0 1 = some 5 from rfl]
      simp only [decide_eq_false_iff_not]
      norm_num)))

/-- C2: starting from a graph whose residual capacities are all
nonnegative - as any freshly constructed graph is, the spec's data model
giving every edge a nonnegative capacity - every edge's residual
capacity is nonnegative after any sequence of admission calls, each
routing a batch of flows or a batch of apps (after every call, since
every prefix of a sequence is itself such a sequence); moreover a
decrement request whose amount exceeds the residual capacity of some
edge of the path (in particular, exceeds the path's minimum residual
capacity) is rejected before any edge is mutated. -/
theorem residual_capacity_nonneg (net0 : CapacityNetwork)
    (calls : List AdmissionCall)
    (h0 : ∀ e ∈ net0.theGraph.edges, 0 ≤ e.weight) :
    (∀ e ∈ (admissionCalls net0 calls).theGraph.edges, 0 ≤ e.weight) ∧
    (∀ (aSrc : Nat) (aPath : List Nat) (aCapacity : ℚ) (aGraph : Graph)
        (u v : Nat) (w : ℚ), (u, v) ∈ pathPairs aSrc aPath →
        findWeightL aGraph.edges u v = some w → w < aCapacity →
        removeCapacityFromPath aSrc aPath aCapacity aGraph = none) := by
  constructor
  · exact admissionCalls_nonneg h0
  · intro aSrc aPath aCapacity aGraph u v w hmem hfw hlt
    cases hcc : checkCapacity aSrc aPath aCapacity aGraph with
    | false => exact removeCapacityFromPath_reject hcc
    | true =>
      exfalso
      obtain ⟨w', hw', hle⟩ :=
        (edgeCanSupport_iff aGraph.edges aCapacity (u, v)).1
          (checkCapacity_all hcc (u, v) hmem)
      have hw'' : findWeightL aGraph.edges u v = some w' := hw'
      rw [hfw] at hw''
      cases hw''
      exact absurd hle (not_le.2 hlt)

/-- Witness for C2: on the single-edge graph of capacity 5, a flow call
admitting net rate 3 (edge left at 2) followed by an app call allocating
gross rate 1 (edge left at 1) keeps the surviving edge's weight
nonnegative. -/
theorem residual_capacity_nonneg_witness :
    (0 : ℚ) ≤ (Edge.mk 0 1 1).weight := by
  have hadj1 : adjustEdge 0 1 3 [Edge.mk 0 1 5] = [Edge.mk 0 1 2] := by
    unfold adjustEdge
    rw [if_pos (⟨rfl, rfl⟩ :
      (Edge.mk 0 1 (5 : ℚ)).src = 0 ∧ (Edge.mk 0 1 (5 : ℚ)).dst = 1)]
    rw [if_neg (by norm_num : ¬((5 : ℚ) - 3 = 0))]
    norm_num [Edge.mk.injEq]
  have h1 : applyCall (CapacityNetwork.mkFromWeights [(0, 1, 5)])
      (AdmissionCall.flows [FlowDescriptor.make 0 1 3] (fun _ => true)) =
      { theGraph := Graph.mk 2 [Edge.mk 0 1 2]
        theMeasurementProbability := 1 } := by
    show (route (CapacityNetwork.mkFromWeights [(0, 1, 5)])
        [FlowDescriptor.make 0 1 3] (fun _ => true)).theNetwork =
      { theGraph := Graph.mk 2 [Edge.mk 0 1 2]
        theMeasurementProbability := 1 }
    rw [route_single_edge 5 3 (by norm_num), hadj1]
  have hadj2 : adjustEdge 0 1 1 [Edge.mk 0 1 2] = [Edge.mk 0 1 1] := by
    unfold adjustEdge
    rw [if_pos (⟨rfl, rfl⟩ :
      (Edge.mk 0 1 (2 : ℚ)).src = 0 ∧ (Edge.mk 0 1 (2 : ℚ)).dst = 1)]
    rw [if_neg (by norm_num : ¬((2 : ℚ) - 1 = 0))]
    norm_num [Edge.mk.injEq]
  have hcap2 : checkCapacity 0 [1] 1 (Graph.mk 2 [Edge.mk 0 1 2])
      = true := by
    unfold checkCapacity
    rw [show pathPairs 0 [1] = [(0, 1)] from rfl]
    simp only [List.all_cons, List.all_nil, Bool.and_true]
    unfold edgeCanSupport
    rw [show findWeightL [Edge.mk 0 1 (2 : ℚ)] 0 1 = some 2 from rfl]
    simpa using (by norm_num : (1 : ℚ) ≤ 2)
  have hrem2 : removeCapacityFromPath 0 [1] (min (1 : ℚ) 2)
      (Graph.mk 2 [Edge.mk 0 1 2]) = some (Graph.mk 2 [Edge.mk 0 1 1]) := by
    rw [show min (1 : ℚ) 2 = 1 from by norm_num]
    unfold removeCapacityFromPath
    rw [if_pos hcap2]
    show some (Graph.mk 2 (adjustEdge 0 1 1 [Edge.mk 0 1 2]))
      = some (Graph.mk 2 [Edge.mk 0 1 1])
    rw [hadj2]
  have hallo : (appAllocate 1 0 [[1]] (Graph.mk 2 [Edge.mk 0 1 2])
      1 []).1 = Graph.mk 2 [Edge.mk 0 1 1] := by
    rw [appAllocate_step 1 0 [1] [] (Graph.mk 2 [Edge.mk 0 1 2])
      (Graph.mk 2 [Edge.mk 0 1 1]) 1 2 [] (by norm_num) rfl (by norm_num)
      hrem2]
    rw [appAllocate]
  have hloop : (appLoop 1 (Graph.mk 2 [Edge.mk 0 1 2])
      [AppDescriptor.make 0 [1] 1]).1 = Graph.mk 2 [Edge.mk 0 1 1] := by
    show (appAllocate 1 0 [[1]] (Graph.mk 2 [Edge.mk 0 1 2])
      ((0 : ℚ) + 1) []).1 = Graph.mk 2 [Edge.mk 0 1 1]
    rw [show ((0 : ℚ) + 1) = 1 from by norm_num]
    exact hallo
  have happ : applyCall
      { theGraph := Graph.mk 2 [Edge.mk 0 1 2]
        theMeasurementProbability := 1 }
      (AdmissionCall.apps [AppDescriptor.make 0 [1] 1]) =
      { theGraph := Graph.mk 2 [Edge.mk 0 1 1]
        theMeasurementProbability := 1 } := by
    have hv : ([AppDescriptor.make 0 [1] 1].all
        (validApp (Graph.mk 2 [Edge.mk 0 1 2]))) = true := by decide
    show (routeApps
        { theGraph := Graph.mk 2 [Edge.mk 0 1 2]
          theMeasurementProbability := 1 }
        [AppDescriptor.make 0 [1] 1]).theNetwork =
      { theGraph := Graph.mk 2 [Edge.mk 0 1 1]
        theMeasurementProbability := 1 }
    unfold routeApps
    rw [if_pos hv]
    rw [hloop]
  have hfinal : admissionCalls (CapacityNetwork.mkFromWeights [(0, 1, 5)])
      [AdmissionCall.flows [FlowDescriptor.make 0 1 3] (fun _ => true),
       AdmissionCall.apps [AppDescriptor.make 0 [1] 1]] =
      { theGraph := Graph.mk 2 [Edge.mk 0 1 1]
        theMeasurementProbability := 1 } := by
    simp only [admissionCalls]
    rw [h1, happ]
  have h := residual_capacity_nonneg
    (CapacityNetwork.mkFromWeights [(0, 1, 5)])
    [AdmissionCall.flows [FlowDescriptor.make 0 1 3] (fun _ => true),
     AdmissionCall.apps [AppDescriptor.make 0 [1] 1]]
    (by intro e he; simp [CapacityNetwork.mkFromWeights] at he; rw [he]
        norm_num)
  exact h.1 (Edge.mk 0 1 1) (by rw [hfinal]; simp)

/-- C4: after a route call returns normally on fresh descriptors, every
descriptor with an empty output path has gross rate zero; every
descriptor with a non-empty output path realized a net rate at least the
requested one; and in the committing step of a flow every edge along its
recorded path had its capacity decremented by exactly the consumed gross
rate. -/
theorem flow_descriptor_output_invariant (net : CapacityNetwork)
    (aFlows : List FlowDescriptor) (check : FlowDescriptor → Bool)
    (hfresh : ∀ f ∈ aFlows, f.thePath = [] ∧ f.theGrossRate = 0)
    (herr : (route net aFlows check).theError = none) :
    (∀ f' ∈ (route net aFlows check).theFlows,
      (f'.thePath = [] → f'.theGrossRate = 0) ∧
      (f'.thePath ≠ [] →
        netRate net.theMeasurementProbability f'.theGrossRate
          ≥ f'.theNetRate)) ∧
    (∀ (p : ℚ) (g g' : Graph) (f f' : FlowDescriptor),
      keysNodup g.edges → f.thePath = [] →
      routeOne p check g f = (g', f') → f'.thePath ≠ [] →
      ∀ uv ∈ pathPairs f.theSrc f'.thePath,
        edgeCapacity g' uv.1 uv.2 =
          edgeCapacity g uv.1 uv.2 - f'.theGrossRate) := by
  constructor
  · have hall : aFlows.all (validFlow net.theGraph) = true := by
      cases hc : aFlows.all (validFlow net.theGraph) with
      | true => rfl
      | false =>
        exfalso
        unfold route at herr
        rw [hc] at herr
        simp at herr
    have hr : route net aFlows check =
        { theError := none
          theNetwork := { net with
            theGraph := (routeLoop net.theMeasurementProbability check
              net.theGraph aFlows).1 }
          theFlows := (routeLoop net.theMeasurementProbability check
            net.theGraph aFlows).2 } := by
      unfold route
      rw [if_pos hall]
    rw [hr]
    apply routeLoop_flows
    intro f hf
    obtain ⟨h1, h2⟩ := hfresh f hf
    refine ⟨h1, h2, ?_⟩
    have hv := List.all_eq_true.1 hall f hf
    unfold validFlow at hv
    simp only [Bool.and_eq_true, bne_iff_ne, ne_eq] at hv
    exact hv.1.1
  · intro p g g' f f' hknd hfp hone hne uv huv
    rcases routeOne_cases hone with
      ⟨_, hf'⟩ | ⟨path, hsp, _, _, hcap, hg', hf'⟩
    · exfalso
      apply hne
      rw [hf']
      exact hfp
    · have hpth : f'.thePath = path := by rw [hf']
      obtain ⟨hnd, hsrcq, _⟩ := shortestPath_props hsp
      have hgr : f'.theGrossRate = f.theNetRate / p := by rw [hf']
      rw [hpth] at huv
      rw [hgr]
      unfold edgeCapacity
      rw [hg']
      exact fold_adjust_decrement hknd (pathPairs_nodup hsrcq hnd)
        (checkCapacity_all hcap) uv huv

/-- Witness for C4: the single admitted flow of the single-edge example
ends with the non-empty path [1] and a realized net rate 3 at least the
requested 3. -/
theorem flow_descriptor_output_invariant_witness :
    ((FlowDescriptor.mk 0 1 3 [1] 3 1).thePath = [] →
      (FlowDescriptor.mk 0 1 3 [1] 3 1).theGrossRate = 0) ∧
    ((FlowDescriptor.mk 0 1 3 [1] 3 1).thePath ≠ [] →
      netRate (CapacityNetwork.mkFromWeights
          [(0, 1, 5)]).theMeasurementProbability
        (FlowDescriptor.mk 0 1 3 [1] 3 1).theGrossRate
        ≥ (FlowDescriptor.mk 0 1 3 [1] 3 1).theNetRate) := by
  have heval := route_single_edge 5 3 (by norm_num)
  have h := flow_descriptor_output_invariant
    (CapacityNetwork.mkFromWeights [(0, 1, 5)])
    [FlowDescriptor.make 0 1 3] (fun _ => true)
    (by intro f hf; rw [List.mem_singleton] at hf; rw [hf]; exact ⟨rfl, rfl⟩)
    (by rw [heval])
  apply h.1
  rw [heval]
  simp

/-- The character data of a concatenation is the concatenation of the
character data. -/
theorem string_append_data (s t : String) :
    (s ++ t).data = s.data ++ t.data := by
  cases s
  cases t
  rfl

/-- An infix of a list is an infix of anything extended on the left. -/
theorem infix_of_append_left {l suf : List Char} (pre : List Char)
    (h : l <:+: suf) : l <:+: pre ++ suf := by
  obtain ⟨a, b, hab⟩ := h
  exact ⟨pre ++ a, b, by rw [← hab]; simp [List.append_assoc]⟩

/-- C7: encoding each of the six named routing policies with toString and
decoding the string back with mecQkdAlgofromString yields the original
policy. -/
theorem policy_roundtrip :
    ∀ a ∈ allMecQkdAlgos,
      mecQkdAlgofromString (toString a) = Except.ok a := by
  intro a ha
  fin_cases ha <;> rfl

/-- Witness for C7: the round trip at the Random policy. -/
theorem policy_roundtrip_witness :
    MecQkdAlgo.Random ∈ allMecQkdAlgos ∧
    mecQkdAlgofromString (toString MecQkdAlgo.Random)
      = Except.ok MecQkdAlgo.Random :=
  ⟨by decide, policy_roundtrip MecQkdAlgo.Random (by decide)⟩

/-- C8: decoding any string that is not one of the six valid policy names
fails with a message that contains all six valid names; decoding each of
the six valid names succeeds. -/
theorem unknown_policy_error_message :
    (∀ s : String,
      s ∉ ["random", "spf", "bestfit", "randomfeas", "spffeas",
        "bestfitfeas"] →
      mecQkdAlgofromString s =
        Except.error ("invalid edge QKD algorithm: " ++ s ++
          " (valid options are: " ++ algoListString ++ ")") ∧
      ∀ a ∈ allMecQkdAlgos,
        (toString a).data <:+:
          ("invalid edge QKD algorithm: " ++ s ++
            " (valid options are: " ++ algoListString ++ ")").data) ∧
    (∀ s ∈ ["random", "spf", "bestfit", "randomfeas", "spffeas",
        "bestfitfeas"], ∃ a, mecQkdAlgofromString s = Except.ok a) := by
  constructor
  · intro s hs
    simp only [List.mem_cons, List.not_mem_nil, or_false, not_or] at hs
    obtain ⟨h1, h2, h3, h4, h5, h6⟩ := hs
    constructor
    · unfold mecQkdAlgofromString
      rw [if_neg h1, if_neg h3, if_neg h2, if_neg h4, if_neg h6, if_neg h5]
    · intro a ha
      have hdata : ("invalid edge QKD algorithm: " ++ s ++
          " (valid options are: " ++ algoListString ++ ")").data =
          "invalid edge QKD algorithm: ".data ++ (s.data ++
            (" (valid options are: ".data ++
              (algoListString.data ++ ")".data))) := by
        simp [string_append_data, List.append_assoc]
      rw [hdata]
      apply infix_of_append_left
      apply infix_of_append_left
      fin_cases ha <;> decide
  · intro s hs
    fin_cases hs
    · exact ⟨MecQkdAlgo.Random, rfl⟩
    · exact ⟨MecQkdAlgo.Spf, rfl⟩
    · exact ⟨MecQkdAlgo.BestFit, rfl⟩
    · exact ⟨MecQkdAlgo.RandomFeas, rfl⟩
    · exact ⟨MecQkdAlgo.SpfFeas, rfl⟩
    · exact ⟨MecQkdAlgo.BestFitFeas, rfl⟩

/-- Witness for C8: decoding the unrecognized name "foo" fails with the
message listing the valid options, and the name of the Random policy
occurs in that message. -/
theorem unknown_policy_error_message_witness :
    mecQkdAlgofromString "foo" =
      Except.error ("invalid edge QKD algorithm: " ++ "foo" ++
        " (valid options are: " ++ algoListString ++ ")") ∧
    (toString MecQkdAlgo.Random).data <:+:
      ("invalid edge QKD algorithm: " ++ "foo" ++
        " (valid options are: " ++ algoListString ++ ")").data :=
  ⟨(unknown_policy_error_message.1 "foo" (by decide)).1,
   (unknown_policy_error_message.1 "foo" (by decide)).2
     MecQkdAlgo.Random (by decide)⟩

/-- C10: toString is total - every value outside the six named
enumerators renders as "unknown", a string that mecQkdAlgofromString
rejects, so the round trip holds only for the six named policies. -/
theorem toString_total_on_enum :
    (∀ a : MecQkdAlgo, a ∉ allMecQkdAlgos → toString a = "unknown") ∧
    mecQkdAlgofromString "unknown" =
      Except.error ("invalid edge QKD algorithm: " ++ "unknown" ++
        " (valid options are: " ++ algoListString ++ ")") := by
  constructor
  · intro a ha
    cases a with
    | Random => exact absurd (by decide) ha
    | Spf => exact absurd (by decide) ha
    | BestFit => exact absurd (by decide) ha
    | RandomFeas => exact absurd (by decide) ha
    | SpfFeas => exact absurd (by decide) ha
    | BestFitFeas => exact absurd (by decide) ha
    | outOfEnum n => rfl
  · rfl

/-- Witness for C10: the out-of-enumeration value 7 renders as
"unknown". -/
theorem toString_total_on_enum_witness :
    MecQkdAlgo.outOfEnum 7 ∉ allMecQkdAlgos ∧
    toString (MecQkdAlgo.outOfEnum 7) = "unknown" :=
  ⟨by decide, toString_total_on_enum.1 (MecQkdAlgo.outOfEnum 7) (by decide)⟩

end qr

end uiiit
